import Mathlib

set_option maxHeartbeats 1000000
set_option maxRecDepth 100000

/-!
Shallow embedding of the document-analyzer program (src/streamlit_app.py):
Python strings are modelled as `List Char` (ASCII scope), regular expressions
via a small backtracking engine whose result ordering mirrors the leftmost,
greedy-with-backtracking semantics of the `re` module, the faiss index search
results as an abstract list of (score, row-index) pairs with integer indices,
and the two module-level stores (`docs_meta` and the vector index) as an
explicit state record.
-/

/-- Python `str.isspace` for the ASCII whitespace characters. -/
def pyIsSpace (c : Char) : Bool :=
  c = ' ' || c = '\t' || c = '\n' || c = '\r' || c = Char.ofNat 11 || c = Char.ofNat 12

/-- Python `str.lower` on one ASCII character. -/
def pyLowerChar (c : Char) : Char :=
  if 'A' ≤ c && c ≤ 'Z' then Char.ofNat (c.toNat + 32) else c

/-- Python `str.lower` (ASCII scope). -/
def pyLower (s : List Char) : List Char := s.map pyLowerChar

/-- Python `str.strip()`: drop leading and trailing whitespace. -/
def pyStrip (s : List Char) : List Char :=
  ((s.dropWhile pyIsSpace).reverse.dropWhile pyIsSpace).reverse

/-- Python slice `s[a:b]` for natural indices (clipped at the ends). -/
def pySlice (s : List Char) (a b : Nat) : List Char := (s.take b).drop a

/-- `text.replace("\n", " ")` from line 57 of the source. -/
def replaceNlSpace (s : List Char) : List Char :=
  s.map (fun c => if c = '\n' then ' ' else c)

/-- Python substring test `needle in hay`. -/
def strIn (needle : List Char) : List Char → Bool
  | [] => needle.isPrefixOf []
  | c :: rest => needle.isPrefixOf (c :: rest) || strIn needle rest

/-- Worker for `pySplitWs`; accumulates the current word reversed. -/
def splitWsGo : List Char → List Char → List (List Char)
  | [], cur => if cur = [] then [] else [cur.reverse]
  | c :: rest, cur =>
    if pyIsSpace c then
      if cur = [] then splitWsGo rest [] else cur.reverse :: splitWsGo rest []
    else splitWsGo rest (c :: cur)

/-- Python `str.split()` with no argument: split on whitespace runs. -/
def pySplitWs (s : List Char) : List (List Char) := splitWsGo s []

/-! ### A tiny backtracking regex engine

Character classes are first-order data so that structural facts about the
patterns (such as "every match starts with a non-space character") are
decidable by evaluation. -/

/-- A character class: an explicit character list plus inclusive ranges. -/
structure CharClass where
  chars : List Char
  ranges : List (Char × Char)
deriving DecidableEq

/-- Membership test of a character class. -/
def CharClass.test (cc : CharClass) (c : Char) : Bool :=
  cc.chars.contains c || cc.ranges.any (fun r => r.1 ≤ c && c ≤ r.2)

/-- The class contains no ASCII whitespace character. -/
def CharClass.allNonSpace (cc : CharClass) : Bool :=
  cc.chars.all (fun c => !pyIsSpace c) &&
    cc.ranges.all (fun r =>
      [' ', '\t', '\n', '\r', Char.ofNat 11, Char.ofNat 12].all
        (fun w => !(r.1 ≤ w && w ≤ r.2)))

/-- Regular expressions: empty, one-character class, concatenation,
prioritized alternation, greedy bounded repetition, and the single capture
group (only group 1 is ever read by the source). -/
inductive RE where
  | eps : RE
  | cls : CharClass → RE
  | cat : RE → RE → RE
  | alt : RE → RE → RE
  | rep : Nat → Option Nat → RE → RE
  | grp : RE → RE
deriving DecidableEq

/-- Matcher state: remaining input and the current group-1 capture. -/
abbrev MState := List Char × Option (List Char)

/-- Greedy repetition worker. `m` matches the body once; iterations must
consume at least one character (which all repeated bodies of the embedded
patterns do), deeper iterations are preferred (greedy), and the `fuel`
argument (always called with more fuel than characters remain) only serves
to make the recursion structural. -/
def repM (m : List Char → Option (List Char) → List MState)
    (lo : Nat) (hi : Option Nat) : Nat → List Char → Option (List Char) → List MState
  | 0, s, g => if lo = 0 then [(s, g)] else []
  | fuel + 1, s, g =>
    let deeper :=
      if hi = some 0 then []
      else
        (m s g).flatMap (fun q =>
          if q.1.length < s.length then
            repM m (lo - 1) (Option.map (fun n => n - 1) hi) fuel q.1 q.2
          else [])
    if lo = 0 then deeper ++ [(s, g)] else deeper

/-- All ways to match `re` against a prefix of the input, in backtracking
priority order (the head is the match Python's `re` engine commits to):
alternation prefers its left branch, repetition prefers more iterations. -/
def mall : RE → List Char → Option (List Char) → List MState
  | .eps, s, g => [(s, g)]
  | .cls _, [], _ => []
  | .cls cc, c :: s, g => if cc.test c then [(s, g)] else []
  | .cat a b, s, g => (mall a s g).flatMap (fun q => mall b q.1 q.2)
  | .alt a b, s, g => mall a s g ++ mall b s g
  | .rep lo hi r, s, g => repM (fun s' g' => mall r s' g') lo hi (s.length + 1) s g
  | .grp r, s, g =>
    (mall r s g).map (fun q => (q.1, some (s.take (s.length - q.1.length))))

/-- First full match of `re` at the start of `s`: consumed length and the
group-1 capture. -/
def reFirst (re : RE) (s : List Char) : Option (Nat × Option (List Char)) :=
  match mall re s none with
  | [] => none
  | q :: _ => some (s.length - q.1.length, q.2)

/-- `re.search` position scan: try each start position left to right and
return the suffix at the first matching position, the consumed length and
the group-1 capture. -/
def reScan (re : RE) : List Char → Option (List Char × Nat × Option (List Char))
  | [] =>
    match reFirst re [] with
    | some p => some ([], p.1, p.2)
    | none => none
  | c :: s' =>
    match reFirst re (c :: s') with
    | some p => some (c :: s', p.1, p.2)
    | none => reScan re s'

/-- `re.search(..).group(1)` (for the patterns below the group is mandatory,
so a successful search always carries a capture). -/
def searchG1 (re : RE) (t : List Char) : Option (List Char) :=
  match reScan re t with
  | none => none
  | some (_, _, g) => g

/-- `re.search(..).group(0)`: the whole matched substring. -/
def searchG0 (re : RE) (t : List Char) : Option (List Char) :=
  match reScan re t with
  | none => none
  | some (s, k, _) => some (s.take k)

/-! ### The concrete patterns of the source

Each regex of `src/streamlit_app.py` is transcribed into the `RE` type.
`re.IGNORECASE` patterns use case-closed classes and case-insensitive
literals. -/

/-- Class with explicit characters only. -/
def ccOf (cs : List Char) : CharClass := ⟨cs, []⟩

/-- Single-character literal. -/
def chC (c : Char) : RE := .cls (ccOf [c])

/-- Case-insensitive single-character literal (for `re.IGNORECASE`). -/
def ccCI (c : Char) : CharClass :=
  if 'a' ≤ c && c ≤ 'z' then ⟨[c, Char.ofNat (c.toNat - 32)], []⟩ else ⟨[c], []⟩

/-- Case-insensitive one-character class. -/
def chCI (c : Char) : RE := .cls (ccCI c)

/-- Case-insensitive literal string. -/
def litCI (s : List Char) : RE := s.foldr (fun c r => .cat (chCI c) r) .eps

/-- Python `\s` (ASCII). -/
def wsC : CharClass := ⟨[' ', '\t', '\n', '\r', Char.ofNat 11, Char.ofNat 12], []⟩

/-- `\s*`. -/
def wsStar : RE := .rep 0 none (.cls wsC)

/-- `r?`. -/
def ropt (r : RE) : RE := .rep 0 (some 1) r

/-- `\d` / `[0-9]`. -/
def digitC : CharClass := ⟨[], [('0', '9')]⟩

/-- `[A-Z]` under IGNORECASE: any ASCII letter. -/
def letterC : CharClass := ⟨[], [('A', 'Z'), ('a', 'z')]⟩

/-- `[a-zA-Z ,.'-]` (the apostrophe is written as its code point 39). -/
def nameTailC : CharClass := ⟨[' ', ',', '.', Char.ofNat 39, '-'], [('a', 'z'), ('A', 'Z')]⟩

/-- `(?:name of student|name)\s*[:\-]?\s*([A-Z][a-zA-Z ,.'-]{2,})`, IGNORECASE. -/
def nameRE : RE :=
  .cat (.alt (litCI ((r"name of student").toList)) (litCI ((r"name").toList)))
    (.cat wsStar (.cat (ropt (.cls (ccOf [':', '-'])))
      (.cat wsStar (.grp (.cat (.cls letterC) (.rep 2 none (.cls nameTailC)))))))

/-- `[ivxlcdm]` under IGNORECASE. -/
def romanC : CharClass :=
  ⟨['i', 'v', 'x', 'l', 'c', 'd', 'm', 'I', 'V', 'X', 'L', 'C', 'D', 'M'], []⟩

/-- `(st|nd|rd|th)` (group 2 of the semester pattern, never read). -/
def ordSuf : RE :=
  .alt (litCI ((r"st").toList))
    (.alt (litCI ((r"nd").toList)) (.alt (litCI ((r"rd").toList)) (litCI ((r"th").toList))))

/-- `[0-9]{1,2}`. -/
def digit12 : RE := .rep 1 (some 2) (.cls digitC)

/-- `(?:semester|sem)\s*[:\-]?\s*([0-9]{1,2}|[ivxlcdm]+|[0-9]{1,2}(st|nd|rd|th)?)`, IGNORECASE. -/
def semRE : RE :=
  .cat (.alt (litCI ((r"semester").toList)) (litCI ((r"sem").toList)))
    (.cat wsStar (.cat (ropt (.cls (ccOf [':', '-'])))
      (.cat wsStar (.grp (.alt digit12
        (.alt (.rep 1 none (.cls romanC)) (.cat digit12 (ropt ordSuf))))))))

/-- Group 1 of the GPA pattern: `([\d]{1,2}(?:\.\d{1,4})?)`. -/
def gpaG : RE :=
  .cat (.rep 1 (some 2) (.cls digitC)) (ropt (.cat (chC '.') (.rep 1 (some 4) (.cls digitC))))

/-- `(?:CGPA|GPA|CPI|SGPA)\s*[:=\-]?\s*([\d]{1,2}(?:\.\d{1,4})?)`, IGNORECASE. -/
def gpaRE : RE :=
  .cat (.alt (litCI ((r"cgpa").toList))
      (.alt (litCI ((r"gpa").toList)) (.alt (litCI ((r"cpi").toList)) (litCI ((r"sgpa").toList)))))
    (.cat wsStar (.cat (ropt (.cls (ccOf [':', '=', '-']))) (.cat wsStar (.grp gpaG))))

/-- `[A-Za-z0-9._%+-]`. -/
def emailLocC : CharClass := ⟨['.', '_', '%', '+', '-'], [('A', 'Z'), ('a', 'z'), ('0', '9')]⟩

/-- `[A-Za-z0-9.-]`. -/
def emailDomC : CharClass := ⟨['.', '-'], [('A', 'Z'), ('a', 'z'), ('0', '9')]⟩

/-- `[A-Za-z0-9._%+-]+@[A-Za-z0-9.-]+\.[A-Za-z]{2,}` (no flags). -/
def emailRE : RE :=
  .cat (.rep 1 none (.cls emailLocC))
    (.cat (chC '@')
      (.cat (.rep 1 none (.cls emailDomC)) (.cat (chC '.') (.rep 2 none (.cls letterC)))))

/-- `[\s-]`. -/
def wsDashC : CharClass := ⟨[' ', '\t', '\n', '\r', Char.ofNat 11, Char.ofNat 12, '-'], []⟩

/-- `[\d\s-]`. -/
def digitWsDashC : CharClass :=
  ⟨[' ', '\t', '\n', '\r', Char.ofNat 11, Char.ofNat 12, '-'], [('0', '9')]⟩

/-- `(?:\+?\d{1,3}[\s-]?)?(?:\d[\d\s-]{7,}\d)` (no flags). -/
def phoneRE : RE :=
  .cat (ropt (.cat (ropt (chC '+')) (.cat (.rep 1 (some 3) (.cls digitC)) (ropt (.cls wsDashC)))))
    (.cat (.cls digitC) (.cat (.rep 7 none (.cls digitWsDashC)) (.cls digitC)))

/-- `[A-Za-z0-9_.-]`. -/
def ghC : CharClass := ⟨['_', '.', '-'], [('A', 'Z'), ('a', 'z'), ('0', '9')]⟩

/-- `https?://github\.com/[A-Za-z0-9_.-]+`, IGNORECASE. -/
def githubRE : RE :=
  .cat (litCI ((r"http").toList))
    (.cat (ropt (chCI 's')) (.cat (litCI ((r"://github.com/").toList)) (.rep 1 none (.cls ghC))))

/-- Group 1 of the summarizer GPA pattern: `([\d]+(?:\.\d{1,4})?)`. -/
def sumGpaG : RE :=
  .cat (.rep 1 none (.cls digitC)) (ropt (.cat (chC '.') (.rep 1 (some 4) (.cls digitC))))

/-- `(?:CGPA|GPA|SGPA|CPI)\s*[:=\-]?\s*([\d]+(?:\.\d{1,4})?)`, IGNORECASE (line 125). -/
def sumGpaRE : RE :=
  .cat (.alt (litCI ((r"cgpa").toList))
      (.alt (litCI ((r"gpa").toList)) (.alt (litCI ((r"sgpa").toList)) (litCI ((r"cpi").toList)))))
    (.cat wsStar (.cat (ropt (.cls (ccOf [':', '=', '-']))) (.cat wsStar (.grp sumGpaG))))

/-! ### `_extract_field_from_text` (lines 54-89) -/

def kwName : List Char := (r"name").toList
def kwSemester : List Char := (r"semester").toList
def kwSem : List Char := (r"sem").toList
def kwGpa : List Char := (r"gpa").toList
def kwCgpa : List Char := (r"cgpa").toList
def kwCpi : List Char := (r"cpi").toList
def kwSgpa : List Char := (r"sgpa").toList
def kwEmail : List Char := (r"email").toList
def kwPhone : List Char := (r"phone").toList
def kwContact : List Char := (r"contact").toList
def kwMobile : List Char := (r"mobile").toList
def kwGithub : List Char := (r"github").toList

/-- The source's `_extract_field_from_text`: each `if` block checks its
keywords in the question, runs its pattern on the text and returns on a
pattern match, otherwise control falls through to the next block. -/
def extract_field_from_text (question text : List Char) : Option (List Char) :=
  let q := pyLower question
  let t := replaceNlSpace text
  match (if strIn kwName q then (searchG1 nameRE t).map pyStrip else none) with
  | some r => some r
  | none =>
  match (if strIn kwSemester q || strIn kwSem q then (searchG1 semRE t).map pyStrip else none) with
  | some r => some r
  | none =>
  match (if strIn kwGpa q || strIn kwCgpa q || strIn kwCpi q || strIn kwSgpa q then
      searchG1 gpaRE t else none) with
  | some r => some r
  | none =>
  match (if strIn kwEmail q then searchG0 emailRE t else none) with
  | some r => some r
  | none =>
  match (if strIn kwPhone q || strIn kwContact q || strIn kwMobile q then
      (searchG0 phoneRE t).map pyStrip else none) with
  | some r => some r
  | none =>
  match (if strIn kwGithub q then searchG0 githubRE t else none) with
  | some r => some r
  | none => none

/-! ### Chunking (`extract_and_chunk_pdf`, lines 24-51)

The per-page `while start < len(text)` loop is embedded with an explicit
fuel argument so that the windowing policy can be stated for arbitrary
`CHUNK_SIZE`/`OVERLAP` values; fuel `text.length` always suffices when
`OVERLAP < CHUNK_SIZE` (claim C8). -/

/-- The `while end < extra_end and not text[end].isspace(): end += 1`
boundary snap (lines 41-42); the budget argument is `extra_end - end`. -/
def snapEnd (text : List Char) : Nat → Nat → Nat
  | e, 0 => e
  | e, b + 1 => if pyIsSpace (text.getD e ' ') then e else snapEnd text (e + 1) b

/-- End of the window starting at `start` (lines 36-43): raw end
`start + cs`, extended up to 50 characters (never past the end of the
text) when the raw end falls strictly inside the text. -/
def winEnd (cs : Nat) (text : List Char) (start : Nat) : Nat :=
  let e0 := start + cs
  if e0 < text.length then snapEnd text e0 (min text.length (e0 + 50) - e0) else e0

/-- The windowing loop (lines 34-46) for chunk size `cs` and overlap `ov`:
emit `text[start:end].strip()` and restart at `end - ov`.  Returns `none`
when the fuel runs out with the loop still running. -/
def chunkFuel (cs ov : Nat) (text : List Char) : Nat → Nat → Option (List (List Char))
  | 0, start => if start < text.length then none else some []
  | fuel + 1, start =>
    if start < text.length then
      (chunkFuel cs ov text fuel (winEnd cs text start - ov)).map
        (fun l => pyStrip (pySlice text start (winEnd cs text start)) :: l)
    else some []

/-- The per-page chunk list with the source constants
`CHUNK_SIZE = 500`, `OVERLAP = 100`. -/
def chunkPage (text : List Char) : List (List Char) :=
  (chunkFuel 500 100 text text.length 0).getD []

/-- The page loop of `extract_and_chunk_pdf`: strip each page text, skip
empty pages, append the page's windows, and break once more than 2000
chunks have accumulated (cap checked after each page, lines 48-49). -/
def extractPagesLoop : List (List Char) → List (List Char) → List (List Char)
  | [], acc => acc
  | p :: ps, acc =>
    let t := pyStrip p
    if t = [] then extractPagesLoop ps acc
    else
      let acc2 := acc ++ chunkPage t
      if 2000 < acc2.length then acc2 else extractPagesLoop ps acc2

/-- `extract_and_chunk_pdf` on the extracted page texts. -/
def extract_and_chunk_pdf (pages : List (List Char)) : List (List Char) :=
  extractPagesLoop pages []

/-! ### The two module-level stores (lines 20-21, 140-147) -/

/-- One `docs_meta` record: `{"chunk_id": i, "text": chunk}`. -/
structure MetaEntry where
  chunk_id : Nat
  text : List Char
deriving DecidableEq

/-- The pair of parallel stores: `docs_meta` and the vector index rows.
`E` is the abstract embedding-vector type; the embedding model is the
black-box function passed to `upload`. -/
structure SysState (E : Type) where
  meta : List MetaEntry
  rows : List E
deriving DecidableEq

/-- The upload block (lines 140-147): if the chunk list is non-empty,
append one embedding row per chunk to the index and one
`{"chunk_id": i, "text": chunk}` record per chunk to `docs_meta`, with
`i` produced by `enumerate(chunks)`. -/
def upload {E : Type} (emb : List Char → E) (s : SysState E)
    (chunks : List (List Char)) : SysState E :=
  if chunks = [] then s
  else
    ⟨s.meta ++ chunks.enum.map (fun p => ⟨p.1, p.2⟩),
     s.rows ++ chunks.map emb⟩

/-- A whole upload action: chunk the PDF pages, then append to both stores. -/
def uploadPdf {E : Type} (emb : List Char → E) (s : SysState E)
    (pages : List (List Char)) : SysState E :=
  upload emb s (extract_and_chunk_pdf pages)

/-- A sequence of uploads starting from the empty stores. -/
def applyUploads {E : Type} (emb : List Char → E)
    (us : List (List (List Char))) : SysState E :=
  us.foldl (upload emb) ⟨[], []⟩

/-- Decidable form of the spec invariant `store[i].chunk_id == i`. -/
def storeAlignedB {E : Type} (s : SysState E) : Bool :=
  s.meta.enum.all (fun p => p.2.chunk_id == p.1)

/-! ### `query` (lines 92-117)

The faiss call `D, I = index.search(q_emb, k)` is abstracted as a list of
`(score, row-index)` pairs handed to `query`: scores are modelled as
rationals and row indices as integers (faiss labels are int64 and can be
the `-1` padding sentinel).  A Python `IndexError` is modelled as `none`. -/

/-- One result record; `score = none` models the absent `"score"` key of a
direct extraction. -/
structure QueryResult where
  score : Option ℚ
  answer : List Char
  context : List Char
deriving DecidableEq

/-- The string `"Extracted directly"`. -/
def extractedDirectly : List Char := (r"Extracted directly").toList

/-- Python list indexing `store[i]` for an `int` index: non-negative
indices read from the front, negative indices from the back, anything out
of `[-len, len)` raises (modelled as `none`). -/
def pyIndex (store : List MetaEntry) (i : Int) : Option MetaEntry :=
  if 0 ≤ i then store.get? i.toNat
  else if i.natAbs ≤ store.length then store.get? (store.length - i.natAbs)
  else none

/-- The result loop of `query` (lines 106-117): keep pairs whose index is
`< len(docs_meta)`, look the chunk up by Python indexing, re-run the field
extractor on the chunk (empty-string answers are falsy and fall back to
the 200-character text head). -/
def buildResults (question : List Char) (store : List MetaEntry) :
    List (ℚ × Int) → Option (List QueryResult)
  | [] => some []
  | (sc, idx) :: rest =>
    if idx < (store.length : Int) then
      match pyIndex store idx with
      | none => none
      | some d =>
        (buildResults question store rest).map (fun rs =>
          ⟨some sc,
           match extract_field_from_text question d.text with
           | some a => if a = [] then d.text.take 200 else a
           | none => d.text.take 200,
           d.text.take 500⟩ :: rs)
    else buildResults question store rest

/-- `query(question, k)` (lines 92-117).  The semantic-search pairs are a
parameter, so theorems quantifying over `hits` cover every `k` and every
index state.  The `if direct:` truthiness test of line 99 is kept. -/
def query (question : List Char) (store : List MetaEntry)
    (hits : List (ℚ × Int)) : Option (List QueryResult) :=
  if store = [] then some []
  else
    let allText := List.intercalate [' '] (store.map MetaEntry.text)
    match extract_field_from_text question allText with
    | some d =>
      if d = [] then buildResults question store hits
      else some [⟨none, d, extractedDirectly⟩]
    | none => buildResults question store hits

/-! ### `summarize_doc` (lines 120-129) -/

/-- `" ".join([d["text"] for d in docs_meta])`. -/
def corpusOf (store : List MetaEntry) : List Char :=
  List.intercalate [' '] (store.map MetaEntry.text)

/-- The `cgpa_line` local of `summarize_doc` (lines 125-126). -/
def cgpaLineOf (store : List MetaEntry) : List Char :=
  match searchG1 sumGpaRE (corpusOf store) with
  | some v => (r"CGPA: ").toList ++ v ++ ['\n']
  | none => []

/-- `summarize_doc(word_count)` (lines 120-129). -/
def summarize_doc (store : List MetaEntry) (word_count : Nat) : List Char :=
  let combined := corpusOf store
  let words := pySplitWs combined
  let summary :=
    List.intercalate [' '] (words.take word_count) ++
      (if word_count < words.length then (r" ...").toList else [])
  cgpaLineOf store ++ summary


/-- Python indexing of line 109 with a default (total form used to state
what the result loop builds; under the hypotheses of the theorems the
default is never read). -/
def pyIndexD (store : List MetaEntry) (i : Int) : MetaEntry :=
  (pyIndex store i).getD ⟨0, []⟩

/-- The `QueryResult` the loop body of lines 107-116 builds from one
`(score, row-index)` pair. -/
def resultFor (question : List Char) (store : List MetaEntry) (p : ℚ × Int) : QueryResult :=
  ⟨some p.1,
   match extract_field_from_text question (pyIndexD store p.2).text with
   | some a => if a = [] then (pyIndexD store p.2).text.take 200 else a
   | none => (pyIndexD store p.2).text.take 200,
   (pyIndexD store p.2).text.take 500⟩

/-! ### Spec model of the vector index (claim C6)

`index.search` is `faiss.IndexFlatIP.search` (line 20), an external
library whose implementation is not part of this repository. -/

/-- Inner product of two rational vectors. -/
def ipScore (q v : List ℚ) : ℚ := (q.zip v).foldl (fun acc p => acc + p.1 * p.2) 0

/-- Descending insertion by score. -/
def insertScored (x : ℚ × Nat) : List (ℚ × Nat) → List (ℚ × Nat)
  | [] => [x]
  | y :: ys => if y.1 ≤ x.1 then x :: y :: ys else y :: insertScored x ys

/-- Sort scored rows descending by score. -/
def sortScores : List (ℚ × Nat) → List (ℚ × Nat)
  | [] => []
  | x :: xs => insertScored x (sortScores xs)

/-- Modelled from the spec: the `VectorIndex.search` contract of section
4.3 — the implementation, `faiss.IndexFlatIP.search`, is an external
library not present under src/.  Score every stored row by inner product
with the query, order descending, and return the first `k`. -/
def searchIndex (rows : List (List ℚ)) (q : List ℚ) (k : Nat) : List (ℚ × Nat) :=
  (sortScores (rows.enum.map (fun p => (ipScore q p.2, p.1)))).take k

/-! ### Structural facts about the matcher -/

/-- `noEps re = true` means no match of `re` consumes zero characters
(repetitions with positive lower bound always consume because every
iteration is progress-filtered). -/
def noEps : RE → Bool
  | .eps => false
  | .cls _ => true
  | .cat a b => noEps a || noEps b
  | .alt a b => noEps a && noEps b
  | .rep lo _ _ => decide (1 ≤ lo)
  | .grp r => noEps r

/-- `headGuardNS re = true` means every consuming match of `re` starts
with a non-whitespace character. -/
def headGuardNS : RE → Bool
  | .eps => true
  | .cls cc => cc.allNonSpace
  | .cat a b => headGuardNS a && (noEps a || headGuardNS b)
  | .alt a b => headGuardNS a && headGuardNS b
  | .rep _ _ r => headGuardNS r
  | .grp r => headGuardNS r

/-- `endCapNS re = true` means the expression ends in its capture group
and every capture is nonempty and starts with a non-space character. -/
def endCapNS : RE → Bool
  | .cat _ b => endCapNS b
  | .grp r => headGuardNS r && noEps r
  | _ => false

/-! ### The dispatch table form of the extractor (claim C1)

The six source branches, as a priority-ordered table of
(keyword-predicate, pattern-extraction) pairs. -/

/-- Keyword predicate of the i-th category, on the lowered question. -/
def catKw : Fin 6 → List Char → Bool
  | ⟨0, _⟩ => fun q => strIn kwName q
  | ⟨1, _⟩ => fun q => strIn kwSemester q || strIn kwSem q
  | ⟨2, _⟩ => fun q => strIn kwGpa q || strIn kwCgpa q || strIn kwCpi q || strIn kwSgpa q
  | ⟨3, _⟩ => fun q => strIn kwEmail q
  | ⟨4, _⟩ => fun q => strIn kwPhone q || strIn kwContact q || strIn kwMobile q
  | ⟨5, _⟩ => fun q => strIn kwGithub q
  | ⟨n + 6, h⟩ => absurd h (by omega)

/-- Pattern extraction of the i-th category, on the newline-replaced text. -/
def catExtract : Fin 6 → List Char → Option (List Char)
  | ⟨0, _⟩ => fun t => (searchG1 nameRE t).map pyStrip
  | ⟨1, _⟩ => fun t => (searchG1 semRE t).map pyStrip
  | ⟨2, _⟩ => fun t => searchG1 gpaRE t
  | ⟨3, _⟩ => fun t => searchG0 emailRE t
  | ⟨4, _⟩ => fun t => (searchG0 phoneRE t).map pyStrip
  | ⟨5, _⟩ => fun t => searchG0 githubRE t
  | ⟨n + 6, h⟩ => absurd h (by omega)

/-- The six categories in source order. -/
def catsL : List (Fin 6) :=
  [⟨0, by omega⟩, ⟨1, by omega⟩, ⟨2, by omega⟩, ⟨3, by omega⟩, ⟨4, by omega⟩, ⟨5, by omega⟩]

/-- Run the categories in order, returning the first successful
extraction among those whose keyword occurs in the question. -/
def runCats (q t : List Char) : List (Fin 6) → Option (List Char)
  | [] => none
  | i :: is =>
    match (if catKw i q then catExtract i t else none) with
    | some r => some r
    | none => runCats q t is

/-! ### Theorems -/


theorem allNonSpace_test {cc : CharClass} {c : Char}
    (hall : cc.allNonSpace = true) (ht : cc.test c = true) : pyIsSpace c = false := by
  by_contra hsp
  rw [Bool.not_eq_false] at hsp
  have hcm : c ∈ [' ', '\t', '\n', '\r', Char.ofNat 11, Char.ofNat 12] := by
    have hc : c = ' ' ∨ c = '\t' ∨ c = '\n' ∨ c = '\r' ∨ c = Char.ofNat 11 ∨ c = Char.ofNat 12 := by
      simpa [pyIsSpace, or_assoc] using hsp
    rcases hc with rfl | rfl | rfl | rfl | rfl | rfl <;> simp
  rw [CharClass.allNonSpace, Bool.and_eq_true, List.all_eq_true, List.all_eq_true] at hall
  obtain ⟨h1, h2⟩ := hall
  rw [CharClass.test, Bool.or_eq_true] at ht
  rcases ht with hmem | hany
  · have hx := h1 c (by simpa using hmem)
    rw [hsp] at hx
    simp at hx
  · rcases List.any_eq_true.mp hany with ⟨r, hr, hrle⟩
    have h3 := h2 r hr
    rw [List.all_eq_true] at h3
    have h4 := h3 c hcm
    rw [hrle] at h4
    simp at h4

/-- Every match result leaves a suffix of the input (repetition worker). -/
theorem repM_suffix {m : List Char → Option (List Char) → List MState}
    (hm : ∀ s g p, p ∈ m s g → p.1 <:+ s) :
    ∀ fuel lo hi s g p, p ∈ repM m lo hi fuel s g → p.1 <:+ s := by
  intro fuel
  induction fuel with
  | zero =>
    intro lo hi s g p hp
    simp only [repM] at hp
    split at hp
    · rcases List.mem_singleton.mp hp with rfl
      exact List.suffix_refl s
    · simp at hp
  | succ n ih =>
    intro lo hi s g p hp
    simp only [repM] at hp
    have hdeep : ∀ q, q ∈ (if hi = some 0 then ([] : List MState)
        else (m s g).flatMap (fun q =>
          if q.1.length < s.length then
            repM m (lo - 1) (Option.map (fun n => n - 1) hi) n q.1 q.2
          else [])) → q.1 <:+ s := by
      intro q hq
      split at hq
      · simp at hq
      · rcases List.mem_flatMap.mp hq with ⟨w, hw, hq2⟩
        split at hq2
        · exact (ih _ _ _ _ q hq2).trans (hm s g w hw)
        · simp at hq2
    split at hp
    · rcases List.mem_append.mp hp with h | h
      · exact hdeep p h
      · rcases List.mem_singleton.mp h with rfl
        exact List.suffix_refl s
    · exact hdeep p hp

/-- Every match result leaves a suffix of the input. -/
theorem mall_suffix : ∀ re s g p, p ∈ mall re s g → p.1 <:+ s := by
  intro re
  induction re with
  | eps =>
    intro s g p hp
    rcases List.mem_singleton.mp hp with rfl
    exact List.suffix_refl s
  | cls cc =>
    intro s g p hp
    match s with
    | [] => simp [mall] at hp
    | c :: s' =>
      simp only [mall] at hp
      split at hp
      · rcases List.mem_singleton.mp hp with rfl
        exact (List.suffix_cons c s')
      · simp at hp
  | cat a b iha ihb =>
    intro s g p hp
    rcases List.mem_flatMap.mp hp with ⟨q, hq, hp2⟩
    exact (ihb q.1 q.2 p hp2).trans (iha s g q hq)
  | alt a b iha ihb =>
    intro s g p hp
    rcases List.mem_append.mp hp with h | h
    · exact iha s g p h
    · exact ihb s g p h
  | rep lo hi r ihr =>
    intro s g p hp
    exact repM_suffix (fun s' g' p' hp' => ihr s' g' p' hp') _ _ _ _ _ p hp
  | grp r ihr =>
    intro s g p hp
    rcases List.mem_map.mp hp with ⟨q, hq, rfl⟩
    exact ihr s g q hq

/-- With a positive lower bound, every repetition result goes through a
first, strictly consuming iteration. -/
theorem repM_consume {m : List Char → Option (List Char) → List MState}
    (hm : ∀ s g p, p ∈ m s g → p.1 <:+ s) {lo : Nat} (hlo : 1 ≤ lo) :
    ∀ fuel hi s g p, p ∈ repM m lo hi fuel s g →
      ∃ q ∈ m s g, q.1.length < s.length ∧ p.1 <:+ q.1 := by
  intro fuel hi s g p hp
  have hlo' : ¬ lo = 0 := by omega
  cases fuel with
  | zero => simp [repM, hlo'] at hp
  | succ n =>
    simp only [repM, if_neg hlo'] at hp
    split at hp
    · simp at hp
    · rcases List.mem_flatMap.mp hp with ⟨w, hw, hq2⟩
      split at hq2
      · exact ⟨w, hw, by assumption, repM_suffix hm _ _ _ _ _ p hq2⟩
      · simp at hq2

/-- Case analysis for repetition results: either no iteration ran, or a
first strictly consuming iteration ran. -/
theorem repM_cases {m : List Char → Option (List Char) → List MState}
    (hm : ∀ s g p, p ∈ m s g → p.1 <:+ s) :
    ∀ fuel lo hi s g p, p ∈ repM m lo hi fuel s g →
      p = (s, g) ∨ ∃ q ∈ m s g, q.1.length < s.length ∧ p.1 <:+ q.1 := by
  intro fuel lo hi s g p hp
  cases fuel with
  | zero =>
    simp only [repM] at hp
    split at hp
    · exact Or.inl (List.mem_singleton.mp hp)
    · simp at hp
  | succ n =>
    simp only [repM] at hp
    have hdeep : ∀ q, q ∈ (if hi = some 0 then ([] : List MState)
        else (m s g).flatMap (fun q =>
          if q.1.length < s.length then
            repM m (lo - 1) (Option.map (fun n => n - 1) hi) n q.1 q.2
          else [])) →
        ∃ w ∈ m s g, w.1.length < s.length ∧ q.1 <:+ w.1 := by
      intro q hq
      split at hq
      · simp at hq
      · rcases List.mem_flatMap.mp hq with ⟨w, hw, hq2⟩
        split at hq2
        · exact ⟨w, hw, by assumption, repM_suffix hm _ _ _ _ _ q hq2⟩
        · simp at hq2
    split at hp
    · rcases List.mem_append.mp hp with h | h
      · exact Or.inr (hdeep p h)
      · exact Or.inl (List.mem_singleton.mp h)
    · exact Or.inr (hdeep p hp)

/-- `noEps` expressions always consume at least one character. -/
theorem mall_noEps : ∀ re, noEps re = true →
    ∀ s g p, p ∈ mall re s g → p.1.length < s.length := by
  intro re
  induction re with
  | eps => intro h; simp [noEps] at h
  | cls cc =>
    intro _ s g p hp
    match s with
    | [] => simp [mall] at hp
    | c :: s' =>
      simp only [mall] at hp
      split at hp
      · rcases List.mem_singleton.mp hp with rfl
        simp
      · simp at hp
  | cat a b iha ihb =>
    intro h s g p hp
    rcases List.mem_flatMap.mp hp with ⟨q, hq, hp2⟩
    rcases Bool.or_eq_true_iff.mp (by simpa [noEps] using h) with ha | hb
    · exact Nat.lt_of_le_of_lt (List.IsSuffix.length_le (mall_suffix b q.1 q.2 p hp2))
        (iha ha s g q hq)
    · exact Nat.lt_of_lt_of_le (ihb hb q.1 q.2 p hp2)
        (List.IsSuffix.length_le (mall_suffix a s g q hq))
  | alt a b iha ihb =>
    intro h s g p hp
    rcases Bool.and_eq_true_iff.mp (by simpa [noEps] using h) with ⟨ha, hb⟩
    rcases List.mem_append.mp hp with h1 | h1
    · exact iha ha s g p h1
    · exact ihb hb s g p h1
  | rep lo hi r ihr =>
    intro h s g p hp
    have hlo : 1 ≤ lo := by simpa [noEps] using h
    rcases repM_consume (fun s' g' p' hp' => mall_suffix r s' g' p' hp') hlo _ _ _ _ p hp with
      ⟨q, _, hqlen, hsuf⟩
    exact Nat.lt_of_le_of_lt (List.IsSuffix.length_le hsuf) hqlen
  | grp r ihr =>
    intro h s g p hp
    rcases List.mem_map.mp hp with ⟨q, hq, rfl⟩
    exact ihr (by simpa [noEps] using h) s g q hq


/-- A consuming match of a `headGuardNS` expression starts at a non-space
character. -/
theorem mall_headGuard : ∀ re, headGuardNS re = true →
    ∀ s g p, p ∈ mall re s g → p.1.length < s.length →
      ∃ c s', s = c :: s' ∧ pyIsSpace c = false := by
  intro re
  induction re with
  | eps =>
    intro _ s g p hp hlen
    rcases List.mem_singleton.mp hp with rfl
    simp at hlen
  | cls cc =>
    intro h s g p hp _
    match s with
    | [] => simp [mall] at hp
    | c :: s' =>
      simp only [mall] at hp
      split at hp
      · exact ⟨c, s', rfl, allNonSpace_test (by simpa [headGuardNS] using h) (by assumption)⟩
      · simp at hp
  | cat a b iha ihb =>
    intro h s g p hp hlen
    have h' : headGuardNS a = true ∧ (noEps a = true ∨ headGuardNS b = true) := by
      simpa [headGuardNS] using h
    obtain ⟨ha, hab⟩ := h'
    rcases List.mem_flatMap.mp hp with ⟨q, hq, hp2⟩
    by_cases hql : q.1.length < s.length
    · exact iha ha s g q hq hql
    · have hqs : q.1 = s :=
        List.IsSuffix.eq_of_length (mall_suffix a s g q hq)
          (by have := List.IsSuffix.length_le (mall_suffix a s g q hq); omega)
      rcases hab with hne | hb
      · exact absurd (mall_noEps a hne s g q hq) hql
      · rw [hqs] at hp2
        exact ihb hb s q.2 p hp2 hlen
  | alt a b iha ihb =>
    intro h s g p hp hlen
    have h' : headGuardNS a = true ∧ headGuardNS b = true := by
      simpa [headGuardNS] using h
    rcases List.mem_append.mp hp with h1 | h1
    · exact iha h'.1 s g p h1 hlen
    · exact ihb h'.2 s g p h1 hlen
  | rep lo hi r ihr =>
    intro h s g p hp hlen
    rcases repM_cases (fun s' g' p' hp' => mall_suffix r s' g' p' hp') _ _ _ _ _ p hp with
      rfl | ⟨q, hq, hqlen, _⟩
    · simp at hlen
    · exact ihr (by simpa [headGuardNS] using h) s g q hq hqlen
  | grp r ihr =>
    intro h s g p hp hlen
    rcases List.mem_map.mp hp with ⟨q, hq, rfl⟩
    exact ihr (by simpa [headGuardNS] using h) s g q hq hlen

/-- An `endCapNS` expression always produces a capture that is nonempty
and starts with a non-space character. -/
theorem mall_endCap : ∀ re, endCapNS re = true →
    ∀ s g p, p ∈ mall re s g →
      ∃ c v, p.2 = some (c :: v) ∧ pyIsSpace c = false := by
  intro re
  induction re with
  | eps => intro h; simp [endCapNS] at h
  | cls cc => intro h; simp [endCapNS] at h
  | cat a b iha ihb =>
    intro h s g p hp
    rcases List.mem_flatMap.mp hp with ⟨q, hq, hp2⟩
    exact ihb (by simpa [endCapNS] using h) q.1 q.2 p hp2
  | alt a b iha ihb => intro h; simp [endCapNS] at h
  | rep lo hi r ihr => intro h; simp [endCapNS] at h
  | grp r ihr =>
    intro h s g p hp
    have h' : headGuardNS r = true ∧ noEps r = true := by
      simpa [endCapNS] using h
    rcases List.mem_map.mp hp with ⟨q, hq, rfl⟩
    have hqlen : q.1.length < s.length := mall_noEps r h'.2 s g q hq
    rcases mall_headGuard r h'.1 s g q hq hqlen with ⟨c, s', rfl, hc⟩
    refine ⟨c, s'.take (s'.length - q.1.length), ?_, hc⟩
    have hk : (c :: s').length - q.1.length = (s'.length - q.1.length) + 1 := by
      simp only [List.length_cons]
      simp only [List.length_cons] at hqlen
      omega
    rw [hk, List.take_succ_cons]

/-- Unfolding of a successful anchored match to a head element of `mall`. -/
theorem reFirst_some {re : RE} {s : List Char} {k : Nat} {g : Option (List Char)}
    (h : reFirst re s = some (k, g)) :
    ∃ q rest, mall re s none = q :: rest ∧ k = s.length - q.1.length ∧ g = q.2 := by
  unfold reFirst at h
  rcases hm : mall re s none with _ | ⟨q, rest⟩
  · rw [hm] at h
    simp at h
  · rw [hm] at h
    injection h with h'
    injection h' with h1 h2
    exact ⟨q, rest, rfl, h1.symm, h2.symm⟩

/-- A successful scan means a successful anchored match at the returned
start suffix. -/
theorem reScan_some {re : RE} :
    ∀ t s k g, reScan re t = some (s, k, g) → reFirst re s = some (k, g) := by
  intro t
  induction t with
  | nil =>
    intro s k g h
    simp only [reScan] at h
    rcases hf : reFirst re [] with _ | p
    · rw [hf] at h
      simp at h
    · rw [hf] at h
      injection h with h'
      injection h' with h1 h2
      subst h1
      rw [hf, ← h2]
  | cons c t' ih =>
    intro s k g h
    simp only [reScan] at h
    rcases hf : reFirst re (c :: t') with _ | p
    · rw [hf] at h
      exact ih s k g h
    · rw [hf] at h
      injection h with h'
      injection h' with h1 h2
      subst h1
      rw [hf, ← h2]

/-- The capture of a successful group-1 search on an `endCapNS` pattern is
nonempty and starts with a non-space character. -/
theorem searchG1_capture {re : RE} {t v : List Char}
    (hcap : endCapNS re = true) (h : searchG1 re t = some v) :
    ∃ c v', v = c :: v' ∧ pyIsSpace c = false := by
  unfold searchG1 at h
  rcases hscan : reScan re t with _ | ⟨s, k, g⟩
  · rw [hscan] at h
    simp at h
  · rw [hscan] at h
    rcases reFirst_some (reScan_some t s k g hscan) with ⟨q, rest, hm, _, hg⟩
    have hqmem : q ∈ mall re s none := by rw [hm]; exact List.mem_cons_self q rest
    rcases mall_endCap re hcap s none q hqmem with ⟨c, v', hv, hc⟩
    have h2 : g = some v := h
    rw [hg, hv] at h2
    injection h2 with h3
    exact ⟨c, v', h3.symm, hc⟩

/-- A whole-match (`group(0)`) result of a `noEps` pattern is nonempty. -/
theorem searchG0_ne_nil {re : RE} {t v : List Char}
    (hne : noEps re = true) (h : searchG0 re t = some v) : v ≠ [] := by
  unfold searchG0 at h
  rcases hscan : reScan re t with _ | ⟨s, k, g⟩
  · rw [hscan] at h
    simp at h
  · rw [hscan] at h
    rcases reFirst_some (reScan_some t s k g hscan) with ⟨q, rest, hm, hk, _⟩
    have hqmem : q ∈ mall re s none := by rw [hm]; exact List.mem_cons_self q rest
    have hlen : q.1.length < s.length := mall_noEps re hne s none q hqmem
    injection h with h'
    rw [← h']
    intro hnil
    have hlt : (s.take k).length = min k s.length := List.length_take k s
    rw [hnil] at hlt
    simp only [List.length_nil] at hlt
    omega

/-- A whole-match result of a `headGuardNS`/`noEps` pattern starts with a
non-space character. -/
theorem searchG0_head {re : RE} {t v : List Char}
    (hhd : headGuardNS re = true) (hne : noEps re = true)
    (h : searchG0 re t = some v) :
    ∃ c v', v = c :: v' ∧ pyIsSpace c = false := by
  unfold searchG0 at h
  rcases hscan : reScan re t with _ | ⟨s, k, g⟩
  · rw [hscan] at h
    simp at h
  · rw [hscan] at h
    rcases reFirst_some (reScan_some t s k g hscan) with ⟨q, rest, hm, hk, _⟩
    have hqmem : q ∈ mall re s none := by rw [hm]; exact List.mem_cons_self q rest
    have hlen : q.1.length < s.length := mall_noEps re hne s none q hqmem
    rcases mall_headGuard re hhd s none q hqmem hlen with ⟨c, s', hs, hc⟩
    injection h with h'
    refine ⟨c, s'.take (k - 1), ?_, hc⟩
    rw [← h', hs]
    have hkk : k = (k - 1) + 1 := by
      rw [hs] at hlen hk
      simp only [List.length_cons] at hlen hk
      omega
    conv_lhs => rw [hkk, List.take_succ_cons]

/-! ### Facts about `pyStrip` -/

theorem dropWhile_ne_nil_of_mem {p : Char → Bool} {l : List Char} {c : Char}
    (hc : c ∈ l) (hp : p c = false) : l.dropWhile p ≠ [] := by
  induction l with
  | nil => simp at hc
  | cons a l' ih =>
    by_cases ha : p a = true
    · rw [List.dropWhile_cons_of_pos ha]
      apply ih
      rcases List.mem_cons.mp hc with rfl | h
      · rw [ha] at hp
        simp at hp
      · exact h
    · rw [List.dropWhile_cons_of_neg (by simpa using ha)]
      simp

theorem dropWhile_head_false {p : Char → Bool} :
    ∀ {l : List Char} {c rest}, List.dropWhile p l = c :: rest → p c = false := by
  intro l
  induction l with
  | nil => intro c rest h; simp at h
  | cons a l' ih =>
    intro c rest h
    by_cases ha : p a = true
    · rw [List.dropWhile_cons_of_pos ha] at h
      exact ih h
    · rw [List.dropWhile_cons_of_neg (by simpa using ha)] at h
      injection h with h1 _
      rw [← h1]
      simpa using ha

theorem dropWhile_suffix (p : Char → Bool) : ∀ l : List Char, l.dropWhile p <:+ l := by
  intro l
  induction l with
  | nil => simp
  | cons a l' ih =>
    by_cases ha : p a = true
    · rw [List.dropWhile_cons_of_pos ha]
      exact ih.trans (List.suffix_cons a l')
    · rw [List.dropWhile_cons_of_neg (by simpa using ha)]

theorem dropWhile_dropWhile (p : Char → Bool) (l : List Char) :
    (l.dropWhile p).dropWhile p = l.dropWhile p := by
  rcases hd : l.dropWhile p with _ | ⟨c, rest⟩
  · simp
  · rw [List.dropWhile_cons_of_neg (by simp [dropWhile_head_false hd])]

/-- Stripping a string that starts with a non-space character never yields
the empty string. -/
theorem pyStrip_ne_nil {c : Char} {v : List Char} (h : pyIsSpace c = false) :
    pyStrip (c :: v) ≠ [] := by
  unfold pyStrip
  rw [List.dropWhile_cons_of_neg (by simp [h])]
  intro hnil
  rw [List.reverse_eq_nil_iff] at hnil
  exact @dropWhile_ne_nil_of_mem pyIsSpace ((c :: v).reverse) c (by simp) h hnil

/-- `strip` is idempotent: stripped text is trimmed. -/
theorem pyStrip_idem (l : List Char) : pyStrip (pyStrip l) = pyStrip l := by
  have hii : (pyStrip l).reverse.dropWhile pyIsSpace = (pyStrip l).reverse := by
    unfold pyStrip
    rw [List.reverse_reverse]
    exact dropWhile_dropWhile pyIsSpace ((l.dropWhile pyIsSpace).reverse)
  have hpre : pyStrip l <+: l.dropWhile pyIsSpace := by
    have h1 := List.reverse_prefix.mpr
      (dropWhile_suffix pyIsSpace (l.dropWhile pyIsSpace).reverse)
    rw [List.reverse_reverse] at h1
    exact h1
  have hi : (pyStrip l).dropWhile pyIsSpace = pyStrip l := by
    rcases hr : pyStrip l with _ | ⟨d, r'⟩
    · simp
    · rw [hr] at hpre
      rcases hpre with ⟨tail, htail⟩
      have hd : pyIsSpace d = false := dropWhile_head_false htail.symm
      rw [List.dropWhile_cons_of_neg (by simp [hd])]
  have houter : pyStrip (pyStrip l) =
      (((pyStrip l).dropWhile pyIsSpace).reverse.dropWhile pyIsSpace).reverse := rfl
  rw [houter, hi, hii, List.reverse_reverse]

/-- Stripping never lengthens a string. -/
theorem pyStrip_length_le (l : List Char) : (pyStrip l).length ≤ l.length := by
  unfold pyStrip
  rw [List.length_reverse]
  calc ((l.dropWhile pyIsSpace).reverse.dropWhile pyIsSpace).length
      ≤ (l.dropWhile pyIsSpace).reverse.length :=
        List.IsSuffix.length_le (dropWhile_suffix pyIsSpace _)
    _ = (l.dropWhile pyIsSpace).length := List.length_reverse _
    _ ≤ l.length := List.IsSuffix.length_le (dropWhile_suffix pyIsSpace l)

/-! ### No pattern matches the empty string -/

theorem mall_nil {re : RE} (h : noEps re = true) (g : Option (List Char)) :
    mall re [] g = [] := by
  rw [List.eq_nil_iff_forall_not_mem]
  intro p hp
  have := mall_noEps re h [] g p hp
  simp at this

theorem searchG1_nil {re : RE} (h : noEps re = true) : searchG1 re [] = none := by
  have h1 : reFirst re [] = none := by
    unfold reFirst
    rw [mall_nil h]
  simp [searchG1, reScan, h1]

theorem searchG0_nil {re : RE} (h : noEps re = true) : searchG0 re [] = none := by
  have h1 : reFirst re [] = none := by
    unfold reFirst
    rw [mall_nil h]
  simp [searchG0, reScan, h1]

/-- On empty text the extractor always misses. -/
theorem extract_field_nil (q : List Char) : extract_field_from_text q [] = none := by
  simp [extract_field_from_text, replaceNlSpace,
    @searchG1_nil nameRE (by decide), @searchG1_nil semRE (by decide),
    @searchG1_nil gpaRE (by decide), @searchG0_nil emailRE (by decide),
    @searchG0_nil phoneRE (by decide), @searchG0_nil githubRE (by decide)]

/-- The source extractor is the table dispatch run over the six categories
in order. -/
theorem extract_eq_runCats (question text : List Char) :
    extract_field_from_text question text =
      runCats (pyLower question) (replaceNlSpace text) catsL := rfl

theorem runCats_none_iff (q t : List Char) :
    ∀ l, runCats q t l = none ↔ ∀ i ∈ l, catKw i q = true → catExtract i t = none := by
  intro l
  induction l with
  | nil => simp [runCats]
  | cons i is ih =>
    cases hk : catKw i q
    · simp only [runCats, hk, Bool.false_eq_true, if_false]
      rw [ih]
      constructor
      · intro hall j hj
        rcases List.mem_cons.mp hj with rfl | hj2
        · intro hkj
          rw [hk] at hkj
          simp at hkj
        · exact hall j hj2
      · intro hall j hj
        exact hall j (List.mem_cons_of_mem i hj)
    · cases hm : catExtract i t
      · simp only [runCats, hk, if_true, hm]
        rw [ih]
        constructor
        · intro hall j hj
          rcases List.mem_cons.mp hj with rfl | hj2
          · intro _
            exact hm
          · exact hall j hj2
        · intro hall j hj
          exact hall j (List.mem_cons_of_mem i hj)
      · next v =>
        simp only [runCats, hk, if_true, hm]
        constructor
        · intro hfalse
          exact absurd hfalse (by simp)
        · intro hall
          have hx := hall i (List.mem_cons_self i is) hk
          rw [hm] at hx
          exact absurd hx (by simp)

/-- If an earlier-listed category never fires, the run is decided by the
first listed category whose keyword matches and whose pattern succeeds. -/
theorem runCats_first (q t a : List Char) :
    ∀ l1 (i : Fin 6) l2, catKw i q = true → catExtract i t = some a →
      (∀ j ∈ l1, catKw j q = true → catExtract j t = none) →
      runCats q t (l1 ++ i :: l2) = some a := by
  intro l1
  induction l1 with
  | nil =>
    intro i l2 hk hm _
    simp [runCats, hk, hm]
  | cons j js ih =>
    intro i l2 hk hm hprev
    cases hkj : catKw j q
    · simp only [List.cons_append, runCats, hkj, Bool.false_eq_true, if_false]
      exact ih i l2 hk hm (fun j' hj' => hprev j' (List.mem_cons_of_mem j hj'))
    · have hmj : catExtract j t = none := hprev j (List.mem_cons_self j js) hkj
      simp only [List.cons_append, runCats, hkj, if_true, hmj]
      exact ih i l2 hk hm (fun j' hj' => hprev j' (List.mem_cons_of_mem j hj'))

/-- A successful run comes from some listed category. -/
theorem runCats_some (q t a : List Char) :
    ∀ l, runCats q t l = some a → ∃ i ∈ l, catExtract i t = some a := by
  intro l
  induction l with
  | nil => intro h; simp [runCats] at h
  | cons i is ih =>
    intro h
    unfold runCats at h
    rcases hb : (if catKw i q then catExtract i t else none) with _ | v
    · rw [hb] at h
      rcases ih h with ⟨j, hj, hje⟩
      exact ⟨j, List.mem_cons_of_mem i hj, hje⟩
    · rw [hb] at h
      injection h with h'
      refine ⟨i, List.mem_cons_self i is, ?_⟩
      rw [← h', ← hb]
      split at hb
      · rw [hb]
        split <;> rfl
      · exact absurd hb (by simp)

/-- Every category extraction is a nonempty string. -/
theorem catExtract_ne_nil (i : Fin 6) (t a : List Char)
    (h : catExtract i t = some a) : a ≠ [] := by
  fin_cases i
  · rcases Option.map_eq_some'.mp h with ⟨v, hv, rfl⟩
    rcases @searchG1_capture nameRE _ _ (by decide) hv with ⟨c, v', rfl, hc⟩
    exact pyStrip_ne_nil hc
  · rcases Option.map_eq_some'.mp h with ⟨v, hv, rfl⟩
    rcases @searchG1_capture semRE _ _ (by decide) hv with ⟨c, v', rfl, hc⟩
    exact pyStrip_ne_nil hc
  · rcases @searchG1_capture gpaRE _ _ (by decide) h with ⟨c, v', rfl, hc⟩
    simp
  · exact @searchG0_ne_nil emailRE _ _ (by decide) h
  · rcases Option.map_eq_some'.mp h with ⟨v, hv, rfl⟩
    rcases @searchG0_head phoneRE _ _ (by decide) (by decide) hv with ⟨c, v', rfl, hc⟩
    exact pyStrip_ne_nil hc
  · exact @searchG0_ne_nil githubRE _ _ (by decide) h

/-- What the extractor returns is never the empty string (so the `if
direct:` and `if answer:` truthiness tests of lines 99 and 114 are
equivalent to a `None` test). -/
theorem extract_ne_nil {q t a : List Char}
    (h : extract_field_from_text q t = some a) : a ≠ [] := by
  rw [extract_eq_runCats] at h
  rcases runCats_some _ _ a catsL h with ⟨i, _, hie⟩
  exact catExtract_ne_nil i _ a hie

/-! ### Facts about the windowing loop -/

theorem snapEnd_ge (text : List Char) : ∀ b e, e ≤ snapEnd text e b := by
  intro b
  induction b with
  | zero => intro e; exact Nat.le_refl e
  | succ n ih =>
    intro e
    unfold snapEnd
    split
    · exact Nat.le_refl e
    · exact Nat.le_trans (Nat.le_succ e) (ih (e + 1))

theorem snapEnd_le (text : List Char) : ∀ b e, snapEnd text e b ≤ e + b := by
  intro b
  induction b with
  | zero => intro e; exact Nat.le_refl e
  | succ n ih =>
    intro e
    unfold snapEnd
    split
    · omega
    · have := ih (e + 1)
      omega

theorem winEnd_ge (cs : Nat) (text : List Char) (start : Nat) :
    start + cs ≤ winEnd cs text start := by
  show start + cs ≤
    (if start + cs < text.length then
      snapEnd text (start + cs) (min text.length (start + cs + 50) - (start + cs))
    else start + cs)
  split
  · exact snapEnd_ge text _ _
  · exact Nat.le_refl _

theorem winEnd_le (cs : Nat) (text : List Char) (start : Nat) :
    winEnd cs text start ≤ start + cs + 50 := by
  show (if start + cs < text.length then
      snapEnd text (start + cs) (min text.length (start + cs + 50) - (start + cs))
    else start + cs) ≤ start + cs + 50
  split
  · have h1 := snapEnd_le text (min text.length (start + cs + 50) - (start + cs)) (start + cs)
    omega
  · omega

/-- Fuel `text.length` always suffices when the overlap is smaller than
the window size: the loop terminates. -/
theorem chunkFuel_isSome {cs ov : Nat} (hov : ov < cs) (text : List Char) :
    ∀ fuel start, text.length ≤ start + fuel →
      (chunkFuel cs ov text fuel start).isSome = true := by
  intro fuel
  induction fuel with
  | zero =>
    intro start h
    unfold chunkFuel
    rw [if_neg (by omega)]
    rfl
  | succ n ih =>
    intro start h
    unfold chunkFuel
    split
    · have hnext : text.length ≤ (winEnd cs text start - ov) + n := by
        have := winEnd_ge cs text start
        omega
      rcases Option.isSome_iff_exists.mp (ih (winEnd cs text start - ov) hnext) with ⟨l, hl⟩
      rw [hl]
      rfl
    · rfl

theorem chunkFuel_cons {cs ov : Nat} {text : List Char} {fuel start : Nat}
    {l : List (List Char)}
    (h : chunkFuel cs ov text (fuel + 1) start = some l) (hs : start < text.length) :
    ∃ l', l = pyStrip (pySlice text start (winEnd cs text start)) :: l' ∧
      chunkFuel cs ov text fuel (winEnd cs text start - ov) = some l' := by
  unfold chunkFuel at h
  rw [if_pos hs] at h
  rcases hrec : chunkFuel cs ov text fuel (winEnd cs text start - ov) with _ | l'
  · rw [hrec] at h
    simp at h
  · rw [hrec] at h
    injection h with h'
    exact ⟨l', h'.symm, rfl⟩

/-- Every emitted window is a stripped string. -/
theorem chunkFuel_strip {cs ov : Nat} {text : List Char} :
    ∀ fuel start l, chunkFuel cs ov text fuel start = some l →
      ∀ c ∈ l, pyStrip c = c := by
  intro fuel
  induction fuel with
  | zero =>
    intro start l h c hc
    unfold chunkFuel at h
    split at h
    · simp at h
    · injection h with h'
      rw [← h'] at hc
      simp at hc
  | succ n ih =>
    intro start l h c hc
    by_cases hs : start < text.length
    · rcases chunkFuel_cons h hs with ⟨l', rfl, hrec⟩
      rcases List.mem_cons.mp hc with rfl | hc2
      · exact pyStrip_idem _
      · exact ih _ l' hrec c hc2
    · unfold chunkFuel at h
      rw [if_neg hs] at h
      injection h with h'
      rw [← h'] at hc
      simp at hc

/-- With the source constants, every emitted window has at most
`CHUNK_SIZE + 50 = 550` characters. -/
theorem chunkFuel_len {text : List Char} :
    ∀ fuel start l, chunkFuel 500 100 text fuel start = some l →
      ∀ c ∈ l, c.length ≤ 550 := by
  intro fuel
  induction fuel with
  | zero =>
    intro start l h c hc
    unfold chunkFuel at h
    split at h
    · simp at h
    · injection h with h'
      rw [← h'] at hc
      simp at hc
  | succ n ih =>
    intro start l h c hc
    by_cases hs : start < text.length
    · rcases chunkFuel_cons h hs with ⟨l', rfl, hrec⟩
      rcases List.mem_cons.mp hc with rfl | hc2
      · have h1 : (pySlice text start (winEnd 500 text start)).length ≤ 550 := by
          have hle := winEnd_le 500 text start
          simp only [pySlice, List.length_drop, List.length_take]
          omega
        exact Nat.le_trans (pyStrip_length_le _) h1
      · exact ih _ l' hrec c hc2
    · unfold chunkFuel at h
      rw [if_neg hs] at h
      injection h with h'
      rw [← h'] at hc
      simp at hc

theorem chunkPage_some (text : List Char) :
    chunkFuel 500 100 text text.length 0 = some (chunkPage text) := by
  rcases Option.isSome_iff_exists.mp
    (@chunkFuel_isSome 500 100 (by omega) text text.length 0 (by omega))
    with ⟨l, hl⟩
  unfold chunkPage
  rw [hl]
  rfl

theorem chunkPage_strip (text : List Char) : ∀ c ∈ chunkPage text, pyStrip c = c :=
  chunkFuel_strip text.length 0 (chunkPage text) (chunkPage_some text)

/-- Every chunk the page loop accumulates is a stripped string. -/
theorem extractPagesLoop_strip :
    ∀ pages acc, (∀ c ∈ acc, pyStrip c = c) →
      ∀ c ∈ extractPagesLoop pages acc, pyStrip c = c := by
  intro pages
  induction pages with
  | nil => intro acc hacc c hc; exact hacc c hc
  | cons p ps ih =>
    intro acc hacc c hc
    rw [show extractPagesLoop (p :: ps) acc =
      (if pyStrip p = [] then extractPagesLoop ps acc
       else if 2000 < (acc ++ chunkPage (pyStrip p)).length then acc ++ chunkPage (pyStrip p)
       else extractPagesLoop ps (acc ++ chunkPage (pyStrip p))) from rfl] at hc
    split at hc
    · exact ih acc hacc c hc
    · have hacc2 : ∀ c' ∈ acc ++ chunkPage (pyStrip p), pyStrip c' = c' := by
        intro c' hc'
        rcases List.mem_append.mp hc' with h1 | h1
        · exact hacc c' h1
        · exact chunkPage_strip (pyStrip p) c' h1
      split at hc
      · exact hacc2 c hc
      · exact ih _ hacc2 c hc

theorem extract_and_chunk_pdf_strip (pages : List (List Char)) :
    ∀ c ∈ extract_and_chunk_pdf pages, pyStrip c = c :=
  extractPagesLoop_strip pages [] (by intro c hc; simp at hc)

/-! ### Facts about the upload block -/

theorem upload_meta {E : Type} (emb : List Char → E) (s : SysState E)
    (chunks : List (List Char)) :
    (upload emb s chunks).meta =
        s.meta ++ chunks.enum.map (fun p => MetaEntry.mk p.1 p.2) ∧
      (upload emb s chunks).rows = s.rows ++ chunks.map emb := by
  unfold upload
  split
  · next hc => subst hc; simp
  · exact ⟨rfl, rfl⟩

theorem foldl_upload_spec {E : Type} (emb : List Char → E) :
    ∀ (us : List (List (List Char))) (s : SysState E),
      (us.foldl (upload emb) s).meta =
          s.meta ++ us.flatMap (fun c => c.enum.map (fun p => MetaEntry.mk p.1 p.2)) ∧
        (us.foldl (upload emb) s).rows = s.rows ++ us.flatMap (fun c => c.map emb) := by
  intro us
  induction us with
  | nil => intro s; simp
  | cons u us' ih =>
    intro s
    rcases upload_meta emb s u with ⟨h1, h2⟩
    rcases ih (upload emb s u) with ⟨h3, h4⟩
    constructor
    · rw [List.foldl_cons, h3, h1]
      simp [List.append_assoc]
    · rw [List.foldl_cons, h4, h2]
      simp [List.append_assoc]

/-! ### Facts about the result loop of `query` -/

theorem buildResults_spec (question : List Char) (store : List MetaEntry) :
    ∀ hits, (∀ p ∈ hits, -(store.length : Int) ≤ p.2) →
      buildResults question store hits =
        some ((hits.filter (fun p => p.2 < (store.length : Int))).map
          (resultFor question store)) := by
  intro hits
  induction hits with
  | nil => intro _; rfl
  | cons p rest ih =>
    intro hp
    have hrest := ih (fun p' hp' => hp p' (List.mem_cons_of_mem p hp'))
    have hpd : -(store.length : Int) ≤ p.2 := hp p (List.mem_cons_self p rest)
    rcases p with ⟨sc, idx⟩
    by_cases hidx : idx < (store.length : Int)
    · have hsome : pyIndex store idx = some (pyIndexD store idx) := by
        unfold pyIndexD
        rcases hx : pyIndex store idx with _ | d
        · exfalso
          unfold pyIndex at hx
          by_cases h0 : 0 ≤ idx
          · rw [if_pos h0,
              List.get?_eq_get (show idx.toNat < store.length by omega)] at hx
            simp at hx
          · rw [if_neg h0, if_pos (show idx.natAbs ≤ store.length by omega),
              List.get?_eq_get (show store.length - idx.natAbs < store.length by omega)] at hx
            simp at hx
        · rfl
      simp only [buildResults]
      rw [if_pos hidx, hsome, hrest]
      simp only [Option.map_some']
      congr 1
      rw [List.filter_cons_of_pos (by simpa using hidx)]
      rfl
    · simp only [buildResults]
      rw [if_neg hidx, hrest]
      congr 1
      rw [List.filter_cons_of_neg (by simpa using hidx)]

/-! ### Claim C1 -/

/-- C1 counterexample: the claim says that when the question contains
keywords of several categories, the first category (here: name) decides
the call and a pattern miss returns `None` without trying any later
category.  On question `"name email"` and text `"x@y.com"` the name
pattern misses, yet the extractor goes on to the email category and
returns the email, not `None`. -/
theorem C1_counterexample :
    extract_field_from_text ((r"name email").toList) ((r"x@y.com").toList) =
      some ((r"x@y.com").toList) := by decide

/-- C1 (amended): `_extract_field_from_text` checks the six categories in
the fixed order name, semester, GPA-family, email, phone/contact/mobile,
GitHub, but stops at the first category whose keyword occurs in the
question AND whose pattern matches the text: a keyword-matching category
whose pattern misses falls through to the later categories, and `None` is
returned exactly when every keyword-matching category's pattern misses. -/
theorem C1_amended_thm (question text : List Char) :
    (extract_field_from_text question text = none ↔
      ∀ i : Fin 6, catKw i (pyLower question) = true →
        catExtract i (replaceNlSpace text) = none) ∧
    (∀ (i : Fin 6) (a : List Char), catKw i (pyLower question) = true →
      catExtract i (replaceNlSpace text) = some a →
      (∀ j : Fin 6, j < i → catKw j (pyLower question) = true →
        catExtract j (replaceNlSpace text) = none) →
      extract_field_from_text question text = some a) := by
  constructor
  · rw [extract_eq_runCats, runCats_none_iff]
    constructor
    · intro hall i hk
      have hmem : i ∈ catsL := by fin_cases i <;> decide
      exact hall i hmem hk
    · intro hall i _ hk
      exact hall i hk
  · intro i a hk hm hprev
    rw [extract_eq_runCats]
    fin_cases i
    · rw [show catsL = [] ++ (⟨0, by omega⟩ : Fin 6) ::
        [⟨1, by omega⟩, ⟨2, by omega⟩, ⟨3, by omega⟩, ⟨4, by omega⟩, ⟨5, by omega⟩] from rfl]
      exact runCats_first _ _ a [] _ _ hk hm (by intro j hj hkj; simp at hj)
    · rw [show catsL = [⟨0, by omega⟩] ++ (⟨1, by omega⟩ : Fin 6) ::
        [⟨2, by omega⟩, ⟨3, by omega⟩, ⟨4, by omega⟩, ⟨5, by omega⟩] from rfl]
      refine runCats_first _ _ a _ _ _ hk hm ?_
      intro j hj hkj
      fin_cases hj
      · exact hprev ⟨0, by omega⟩ (by decide) hkj
    · rw [show catsL = [⟨0, by omega⟩, ⟨1, by omega⟩] ++ (⟨2, by omega⟩ : Fin 6) ::
        [⟨3, by omega⟩, ⟨4, by omega⟩, ⟨5, by omega⟩] from rfl]
      refine runCats_first _ _ a _ _ _ hk hm ?_
      intro j hj hkj
      fin_cases hj
      · exact hprev ⟨0, by omega⟩ (by decide) hkj
      · exact hprev ⟨1, by omega⟩ (by decide) hkj
    · rw [show catsL = [⟨0, by omega⟩, ⟨1, by omega⟩, ⟨2, by omega⟩] ++
        (⟨3, by omega⟩ : Fin 6) :: [⟨4, by omega⟩, ⟨5, by omega⟩] from rfl]
      refine runCats_first _ _ a _ _ _ hk hm ?_
      intro j hj hkj
      fin_cases hj
      · exact hprev ⟨0, by omega⟩ (by decide) hkj
      · exact hprev ⟨1, by omega⟩ (by decide) hkj
      · exact hprev ⟨2, by omega⟩ (by decide) hkj
    · rw [show catsL = [⟨0, by omega⟩, ⟨1, by omega⟩, ⟨2, by omega⟩, ⟨3, by omega⟩] ++
        (⟨4, by omega⟩ : Fin 6) :: [⟨5, by omega⟩] from rfl]
      refine runCats_first _ _ a _ _ _ hk hm ?_
      intro j hj hkj
      fin_cases hj
      · exact hprev ⟨0, by omega⟩ (by decide) hkj
      · exact hprev ⟨1, by omega⟩ (by decide) hkj
      · exact hprev ⟨2, by omega⟩ (by decide) hkj
      · exact hprev ⟨3, by omega⟩ (by decide) hkj
    · rw [show catsL = [⟨0, by omega⟩, ⟨1, by omega⟩, ⟨2, by omega⟩, ⟨3, by omega⟩,
        ⟨4, by omega⟩] ++ (⟨5, by omega⟩ : Fin 6) :: [] from rfl]
      refine runCats_first _ _ a _ _ _ hk hm ?_
      intro j hj hkj
      fin_cases hj
      · exact hprev ⟨0, by omega⟩ (by decide) hkj
      · exact hprev ⟨1, by omega⟩ (by decide) hkj
      · exact hprev ⟨2, by omega⟩ (by decide) hkj
      · exact hprev ⟨3, by omega⟩ (by decide) hkj
      · exact hprev ⟨4, by omega⟩ (by decide) hkj

/-- C1 witness: the amended dispatch applied to the email category on a
concrete question and text. -/
theorem C1_witness :
    extract_field_from_text ((r"email").toList) ((r"x@y.com").toList) =
      some ((r"x@y.com").toList) :=
  (C1_amended_thm ((r"email").toList) ((r"x@y.com").toList)).2 ⟨3, by omega⟩
    ((r"x@y.com").toList) (by decide) (by decide) (by decide)

/-! ### Claim C2 -/

/-- C2 counterexample: after two uploads (one chunk each), position 1 of
`docs_meta` carries `chunk_id 0`, because `enumerate(chunks)` restarts at
0 on every upload while the store appends; `store[i].chunk_id == i`
fails. -/
theorem C2_counterexample :
    storeAlignedB (uploadPdf (fun t => t)
      (uploadPdf (fun t => t) (⟨[], []⟩ : SysState (List Char)) [(r"hello").toList])
      [(r"world").toList]) = false := by decide

/-- C2 (amended): after every sequence of uploads starting from the empty
stores, row i of the vector index holds the embedding of `store[i].text`
(the row list is exactly the embedding image of the store), and
`store[i].chunk_id` equals the position of the chunk inside its own
upload (`enumerate` of each upload's chunk list), not the global position
`i`. -/
theorem C2_amended_thm {E : Type} (emb : List Char → E)
    (us : List (List (List Char))) :
    (applyUploads emb us).rows =
        (applyUploads emb us).meta.map (fun e => emb e.text) ∧
      (applyUploads emb us).meta =
        us.flatMap (fun c => c.enum.map (fun p => MetaEntry.mk p.1 p.2)) := by
  unfold applyUploads
  rcases foldl_upload_spec emb us ⟨[], []⟩ with ⟨h1, h2⟩
  rw [h1, h2]
  simp only [List.nil_append]
  constructor
  · rw [List.map_flatMap]
    congr 1
    funext c
    rw [List.map_map]
    rw [show ((fun e : MetaEntry => emb e.text) ∘ (fun p : Nat × List Char =>
      MetaEntry.mk p.1 p.2)) = (emb ∘ Prod.snd) from rfl]
    rw [← List.map_map, List.enum_map_snd]
  · trivial

/-! ### Claim C3 -/

/-- C3 counterexample: a `(score, row-index)` pair with row index `-1`
(the padding faiss emits when `k` exceeds the number of stored vectors)
falls outside the store bounds, yet the guard `idx < len(docs_meta)`
keeps it and a `QueryResult` is built from it (Python `-1` indexing reads
the last chunk); the claim says such pairs are discarded and no result is
built from them. -/
theorem C3_counterexample :
    query ((r"zzz").toList) [⟨0, (r"hello").toList⟩] [((1 : ℚ), (-1 : Int))] =
      some [⟨some 1, (r"hello").toList, (r"hello").toList⟩] := by decide

/-- C3 (amended): the result loop discards exactly the pairs with row
index `≥ len(docs_meta)`; pairs with negative row index are kept and
resolved by Python negative indexing (`store[len + idx]`), and as long as
every returned index is at least `-len(docs_meta)` — faiss labels are
either valid rows or the `-1` sentinel — no out-of-range access occurs. -/
theorem C3_amended_thm (question : List Char) (store : List MetaEntry)
    (hits : List (ℚ × Int)) (h : ∀ p ∈ hits, -(store.length : Int) ≤ p.2) :
    buildResults question store hits =
      some ((hits.filter (fun p => p.2 < (store.length : Int))).map
        (resultFor question store)) :=
  buildResults_spec question store hits h

/-- C3 witness: the loop on one in-range sentinel pair and one
out-of-bounds pair. -/
theorem C3_witness :
    buildResults ((r"zzz").toList) [⟨0, (r"hello").toList⟩]
        [((1 : ℚ), (-1 : Int)), ((2 : ℚ), (5 : Int))] =
      some (([((1 : ℚ), (-1 : Int)), ((2 : ℚ), (5 : Int))].filter
          (fun p => p.2 < (([⟨0, (r"hello").toList⟩] : List MetaEntry).length : Int))).map
        (resultFor ((r"zzz").toList) [⟨0, (r"hello").toList⟩])) :=
  C3_amended_thm ((r"zzz").toList) [⟨0, (r"hello").toList⟩]
    [((1 : ℚ), (-1 : Int)), ((2 : ℚ), (5 : Int))] (by decide)

/-! ### Claim C4 -/

/-- C4: if the field extractor yields a result on the concatenation of
all stored chunk texts, `query` returns exactly one result whose context
is the literal `"Extracted directly"` and whose score is absent, without
consulting semantic search (the theorem holds for every `hits` list, so
the search outcome is irrelevant). -/
theorem C4_thm (question : List Char) (store : List MetaEntry)
    (hits : List (ℚ × Int)) (a : List Char)
    (h : extract_field_from_text question
        (List.intercalate [' '] (store.map MetaEntry.text)) = some a) :
    query question store hits = some [⟨none, a, extractedDirectly⟩] := by
  have hne : a ≠ [] := extract_ne_nil h
  by_cases hs : store = []
  · subst hs
    rw [show List.intercalate [' '] (([] : List MetaEntry).map MetaEntry.text) = []
      from rfl] at h
    rw [extract_field_nil] at h
    exact absurd h (by simp)
  · have hq : query question store hits =
        (match extract_field_from_text question
            (List.intercalate [' '] (store.map MetaEntry.text)) with
          | some d => if d = [] then buildResults question store hits
            else some [⟨none, d, extractedDirectly⟩]
          | none => buildResults question store hits) := by
      unfold query
      rw [if_neg hs]
    rw [hq, h]
    show (if a = [] then buildResults question store hits
      else some [⟨none, a, extractedDirectly⟩]) = some [⟨none, a, extractedDirectly⟩]
    rw [if_neg hne]

/-- C4 witness: a CGPA question on a store whose corpus contains a CGPA
field. -/
theorem C4_witness :
    query ((r"what is the cgpa").toList) [⟨0, (r"CGPA: 8.75").toList⟩] [] =
      some [⟨none, (r"8.75").toList, extractedDirectly⟩] :=
  C4_thm ((r"what is the cgpa").toList) [⟨0, (r"CGPA: 8.75").toList⟩] []
    ((r"8.75").toList) (by decide)

/-! ### Claim C5 -/

/-- C5 counterexample: a page consisting of a letter, 1000 spaces and a
letter produces a middle window of pure whitespace; its stripped text is
empty, yet the pipeline stores it: the record at position 1 of the store
has empty text.  The claim says every stored chunk text is non-empty. -/
theorem C5_counterexample :
    (uploadPdf (fun t => t) (⟨[], []⟩ : SysState (List Char))
        ['a' :: (List.replicate 1000 ' ' ++ ['b'])]).meta.get? 1 =
      some ⟨1, []⟩ := by decide

/-- C5 (amended): every chunk record the upload pipeline stores has text
trimmed of leading and trailing whitespace (`strip` is the identity on
it), but the text may be empty — empty-after-trim windows are appended
unfiltered. -/
theorem C5_amended_thm {E : Type} (emb : List Char → E) (pages : List (List Char)) :
    ∀ e ∈ (uploadPdf emb ⟨[], []⟩ pages).meta, pyStrip e.text = e.text := by
  intro e he
  unfold uploadPdf at he
  rcases upload_meta emb ⟨[], []⟩ (extract_and_chunk_pdf pages) with ⟨h1, _⟩
  rw [h1] at he
  simp only [List.nil_append] at he
  rcases List.mem_map.mp he with ⟨p, hp, rfl⟩
  have hmem : p.2 ∈ extract_and_chunk_pdf pages := by
    rw [← List.enum_map_snd (extract_and_chunk_pdf pages)]
    exact List.mem_map_of_mem Prod.snd hp
  exact extract_and_chunk_pdf_strip pages p.2 hmem

/-- C5 witness: the stored chunk of a one-page one-chunk upload is
trimmed. -/
theorem C5_witness : pyStrip ((r"hi").toList) = (r"hi").toList :=
  C5_amended_thm (fun t => t) [(r"hi").toList] ⟨0, (r"hi").toList⟩ (by decide)

/-! ### Claim C6 -/

theorem insertScored_length (x : ℚ × Nat) :
    ∀ l, (insertScored x l).length = l.length + 1 := by
  intro l
  induction l with
  | nil => rfl
  | cons y ys ih =>
    unfold insertScored
    split
    · simp
    · simp only [List.length_cons, ih]

theorem sortScores_length : ∀ l, (sortScores l).length = l.length := by
  intro l
  induction l with
  | nil => rfl
  | cons x xs ih =>
    unfold sortScores
    rw [insertScored_length, ih, List.length_cons]

/-- C6: for every `k` and every index state of `n` rows, the search of
the spec-modelled vector index returns at most `n` `(score, row)` pairs
even when `k > n`, and searching an empty index yields the empty sequence
(no error). -/
theorem C6_thm (rows : List (List ℚ)) (q : List ℚ) (k : Nat) :
    (searchIndex rows q k).length ≤ rows.length ∧ searchIndex [] q k = [] := by
  constructor
  · unfold searchIndex
    calc (List.take k (sortScores (rows.enum.map
          (fun p => (ipScore q p.2, p.1))))).length
        ≤ (sortScores (rows.enum.map (fun p => (ipScore q p.2, p.1)))).length :=
          List.length_take_le' _ _
      _ = (rows.enum.map (fun p => (ipScore q p.2, p.1))).length := sortScores_length _
      _ = rows.length := by simp
  · simp [searchIndex, sortScores]

/-! ### Claim C7 -/

/-- C7: on every page text longer than `CHUNK_SIZE = 500`, the windowing
loop emits at least two chunks, and every emitted chunk has at most
`CHUNK_SIZE + 50 = 550` characters (the boundary snap extends a window by
at most 50 characters and never past the end of the text). -/
theorem C7_thm (T : List Char) (h : 500 < T.length) :
    2 ≤ (chunkPage T).length ∧ ∀ c ∈ chunkPage T, c.length ≤ 550 := by
  constructor
  · have h0 := chunkPage_some T
    obtain ⟨f1, hf1⟩ : ∃ f1, T.length = f1 + 1 := ⟨T.length - 1, by omega⟩
    rw [hf1] at h0
    rcases chunkFuel_cons h0 (by omega) with ⟨l1, hl1, hrec1⟩
    have hw1 := winEnd_ge 500 T 0
    have hw2 := winEnd_le 500 T 0
    have hs2 : winEnd 500 T 0 - 100 < T.length := by omega
    obtain ⟨f2, hf2⟩ : ∃ f2, f1 = f2 + 1 := ⟨f1 - 1, by omega⟩
    rw [hf2] at hrec1
    rcases chunkFuel_cons hrec1 hs2 with ⟨l2, hl2, _⟩
    rw [hl1, hl2]
    simp
  · intro c hc
    exact chunkFuel_len T.length 0 (chunkPage T) (chunkPage_some T) c hc

/-- C7 witness: a 501-character page yields at least two chunks. -/
theorem C7_witness : 2 ≤ (chunkPage (List.replicate 501 'a')).length :=
  (C7_thm (List.replicate 501 'a') (by simp)).1

/-! ### Claim C8 -/

/-- C8: whenever the configured constants satisfy `OVERLAP < CHUNK_SIZE`,
the windowing loop advances its start strictly on every iteration
(`start < end - OVERLAP`), and the loop terminates on every finite page
text (fuel equal to the text length never runs out). -/
theorem C8_thm (cs ov : Nat) (T : List Char) (h : ov < cs) :
    (∀ start, start < T.length → start < winEnd cs T start - ov) ∧
      (chunkFuel cs ov T T.length 0).isSome = true := by
  constructor
  · intro start _
    have := winEnd_ge cs T start
    omega
  · exact chunkFuel_isSome h T T.length 0 (by omega)

/-- C8 witness: the source constants 500/100 on a concrete page. -/
theorem C8_witness :
    (chunkFuel 500 100 ((r"hello world").toList)
      ((r"hello world").toList).length 0).isSome = true :=
  (C8_thm 500 100 ((r"hello world").toList) (by omega)).2

/-! ### Claim C9 -/

/-- C9: for every stored corpus and every word count, `summarize_doc`
returns the first `word_count` whitespace-split words of the concatenated
chunk texts joined by single spaces, with the literal `" ..."` appended
exactly when the corpus has more than `word_count` words, and prefixed by
a `"CGPA: <value>\n"` line exactly when the GPA-family pattern matches
the concatenation (no question is involved). -/
theorem C9_thm (store : List MetaEntry) (wc : Nat) :
    ((pySplitWs (corpusOf store)).length ≤ wc →
      summarize_doc store wc =
        cgpaLineOf store ++ List.intercalate [' '] (pySplitWs (corpusOf store))) ∧
    (wc < (pySplitWs (corpusOf store)).length →
      summarize_doc store wc =
        cgpaLineOf store ++
          (List.intercalate [' '] ((pySplitWs (corpusOf store)).take wc) ++
            (r" ...").toList)) ∧
    (cgpaLineOf store = [] ↔ searchG1 sumGpaRE (corpusOf store) = none) := by
  have hdef : summarize_doc store wc =
      cgpaLineOf store ++
        (List.intercalate [' '] ((pySplitWs (corpusOf store)).take wc) ++
          (if wc < (pySplitWs (corpusOf store)).length then (r" ...").toList else [])) :=
    rfl
  refine ⟨?_, ?_, ?_⟩
  · intro hle
    rw [hdef, if_neg (by omega), List.take_of_length_le hle, List.append_nil]
  · intro hlt
    rw [hdef, if_pos hlt]
  · rcases hx : searchG1 sumGpaRE (corpusOf store) with _ | v
    · have hcg : cgpaLineOf store = [] := by
        unfold cgpaLineOf
        rw [hx]
      rw [hcg]
      simp
    · have hcg : cgpaLineOf store = (r"CGPA: ").toList ++ v ++ ['\n'] := by
        unfold cgpaLineOf
        rw [hx]
      rw [hcg]
      constructor
      · intro hnil
        simp at hnil
      · intro hnone
        simp at hnone

/-- C9 witness: the spec's own example, word count 5 on the corpus
"one two three four five six seven". -/
theorem C9_witness :
    summarize_doc [⟨0, (r"one two three four five six seven").toList⟩] 5 =
      (r"one two three four five ...").toList := by
  have h := (C9_thm [⟨0, (r"one two three four five six seven").toList⟩] 5).2.1
    (by decide)
  rw [h]
  decide

/-! ### Claim C10 -/

/-- C10: on an empty document store, `query` returns the empty sequence
for every question and every search outcome, and `summarize_doc` returns
the empty string for every word count; neither raises an error. -/
theorem C10_thm (question : List Char) (hits : List (ℚ × Int)) (wc : Nat) :
    query question [] hits = some [] ∧ summarize_doc [] wc = [] := by
  constructor
  · rfl
  · have hdef : summarize_doc [] wc =
        cgpaLineOf [] ++
          (List.intercalate [' '] ((pySplitWs (corpusOf [])).take wc) ++
            (if wc < (pySplitWs (corpusOf [])).length then (r" ...").toList else [])) :=
      rfl
    rw [hdef]
    rw [show cgpaLineOf [] = [] by decide]
    rw [show pySplitWs (corpusOf []) = [] by decide]
    rw [List.take_nil]
    rw [show List.intercalate ([' ']) ([] : List (List Char)) = [] from rfl]
    rw [if_neg (by simp)]
    rfl
